import Mathlib

/-!
Verification of the completion engine of `complgen` (files `src/complete.rs`
and `src/grammar.rs`).  The data types that live outside those two files
(`regex::Input`, `dfa::DFA`, the `Error` enum of the library root and the
`StateId` alias) are modelled from the specification, as noted on each
definition.  Everything else is translated directly from the Rust source.
-/

namespace Complgen

/-- Modelled from the spec: `MatchAnythingInput` (the payload of an `Any`
transition label), from `regex.rs` which is not part of the sources here.
`Command` carries a shell command string, `Nonterminal` a nonterminal name. -/
inductive MatchAnythingInput where
  | Command (cmd : String)
  | Nonterminal (name : String)
deriving DecidableEq, Repr

/-- Modelled from the spec: the DFA transition label `Input` from `regex.rs`
(not part of the sources here): a literal token with an optional description,
or a match-anything input. -/
inductive Input where
  | Literal (token : String) (description : Option String)
  | Any (payload : MatchAnythingInput)
deriving DecidableEq, Repr

/-- `Input::matches_anything` (used by `get_match_final_state`): true exactly
on `Any` labels. -/
def Input.matches_anything : Input → Bool
  | .Literal _ _ => false
  | .Any _ => true

/-- Modelled from the spec: the DFA record from `dfa.rs` (not part of the
sources here).  `StateId` is a small non-negative integer, modelled as `Nat`.
Transitions are a map from state to a map from `Input` to target state,
modelled as association lists.  The `input_positions` field is not used by
the completion engine and is omitted. -/
structure DFA where
  starting_state : Nat
  accepting_states : List Nat
  transitions : List (Nat × List (Input × Nat))
deriving Repr

/-- First-match association-list lookup, the model of
`dfa.transitions.get(&state)`; a missing key behaves like
`.unwrap_or(&HashMap::default())`, i.e. an empty transition map. -/
def lookupTrans : List (Nat × List (Input × Nat)) → Nat → List (Input × Nat)
  | [], _ => []
  | (k, v) :: rest, s => if k = s then v else lookupTrans rest s

/-- The outgoing transitions of state `s`:
`dfa.transitions.get(&s).unwrap_or(&HashMap::default())`. -/
def transOf (dfa : DFA) (s : Nat) : List (Input × Nat) :=
  lookupTrans dfa.transitions s

/-- The first push loop of `get_match_final_state`: for every outgoing
transition whose input `matches_anything`, push `(input_index + 1, to)`. -/
def anyPushes (dfa : DFA) (s i : Nat) : List (Nat × Nat) :=
  ((transOf dfa s).filter (fun p => p.1.matches_anything)).map (fun p => (i + 1, p.2))

/-- The literal test of the second push loop of `get_match_final_state`:
`Input::Literal(t, _)` with `t == inputs[input_index]`. -/
def litMatches (ws : List String) (i : Nat) : Input → Bool
  | .Literal t _ => ws.get? i == some t
  | .Any _ => false

/-- The second push loop of `get_match_final_state`: for every outgoing
`Literal` transition whose token equals `inputs[input_index]`, push
`(input_index + 1, to)`. -/
def litPushes (dfa : DFA) (ws : List String) (s i : Nat) : List (Nat × Nat) :=
  ((transOf dfa s).filter (fun p => litMatches ws i p.1)).map (fun p => (i + 1, p.2))

/-- The loop body of `get_match_final_state`, with explicit fuel.  The Rust
`Vec` is a stack with its top at the end; here the list head is the top, so
pushing the sequence `anyPushes ++ litPushes` prepends its reverse.  `none`
means the fuel ran out (shown unreachable below), `some none` models the
fall-through `None` of the exhausted stack, `some (some s)` a returned
state. -/
def gmfsGo (dfa : DFA) (ws : List String) (idx : Nat) :
    Nat → List (Nat × Nat) → Option (Option Nat)
  | 0, _ => none
  | _ + 1, [] => some none
  | fuel + 1, (i, s) :: rest =>
    if ws.length ≤ i then some (some s)
    else if idx ≤ i then some (some s)
    else gmfsGo dfa ws idx fuel
      ((anyPushes dfa s i ++ litPushes dfa ws s i).reverse ++ rest)

/-- The index at which the search stops: `min (len W) completed_word_index`. -/
def searchBound (ws : List String) (idx : Nat) : Nat := min ws.length idx

/-- Total number of transition entries of the DFA, used for the fuel bound. -/
def totalTrans (dfa : DFA) : Nat := (dfa.transitions.map (fun p => p.2.length)).sum

/-- Base of the exponential fuel bound: strictly more than the number of
entries any single pop can push. -/
def fuelBase (dfa : DFA) : Nat := 2 * totalTrans dfa + 1

/-- Weight of one backtracking-stack entry in the termination measure. -/
def entryWeight (dfa : DFA) (ws : List String) (idx : Nat) (e : Nat × Nat) : Nat :=
  fuelBase dfa ^ (searchBound ws idx + 1 - e.1)

/-- Termination measure of a backtracking stack. -/
def stackMeasure (dfa : DFA) (ws : List String) (idx : Nat)
    (stack : List (Nat × Nat)) : Nat :=
  (stack.map (entryWeight dfa ws idx)).sum

/-- Fuel that provably suffices for the whole search. -/
def initFuel (dfa : DFA) (ws : List String) (idx : Nat) : Nat :=
  fuelBase dfa ^ (searchBound ws idx + 1) + 1

/-- `get_match_final_state` from `src/complete.rs`: backtracking search from
`(0, starting_state)`. -/
def get_match_final_state (dfa : DFA) (ws : List String) (idx : Nat) : Option Nat :=
  match gmfsGo dfa ws idx (initFuel dfa ws idx) [(0, dfa.starting_state)] with
  | some r => r
  | none => none

/-- Modelled from the spec: the Shell Bridge (`Shell` in `src/complete.rs`
invokes an external shell process; the process is modelled as an oracle).
Each operation returns the raw stdout, or `none` for a failed invocation
(non-zero exit status or I/O error). -/
structure Shell where
  shell_out : String → Option String
  complete_paths : String → Option String
  complete_directories : String → Option String

/-- Splitting a list of characters at every newline character; the model of
the line structure used by Rust's `str::lines`. -/
def splitOnNl : List Char → List (List Char)
  | [] => [[]]
  | c :: rest =>
    if c = '\n' then [] :: splitOnNl rest
    else
      match splitOnNl rest with
      | p :: ps => (c :: p) :: ps
      | [] => [[c]]

/-- Strip one trailing carriage return, the model of the `\r\n` handling of
Rust's `str::lines`. -/
def stripCr (l : List Char) : List Char :=
  if l.getLast? = some '\r' then l.dropLast else l

/-- Apply `f` to every element but the last. -/
def mapButLast (f : List Char → List Char) : List (List Char) → List (List Char)
  | [] => []
  | [a] => [a]
  | a :: rest => f a :: mapButLast f rest

/-- Rust's `str::lines`: split on `\n`, drop one final empty segment (a final
line ending is optional), and strip a `\r` from every line that was
terminated by `\n`. -/
def rustLines (s : String) : List String :=
  let parts := splitOnNl s.data
  let parts :=
    if parts.getLast? = some [] then (parts.dropLast).map stripCr
    else mapButLast stripCr parts
  parts.map (fun l => String.mk l)

/-- Rust's `str::split_once(sep)`: split at the first occurrence of `sep`. -/
def splitOnce (sep : Char) : List Char → Option (List Char × List Char)
  | [] => none
  | c :: rest =>
    if c = sep then some ([], rest)
    else
      match splitOnce sep rest with
      | some (a, b) => some (c :: a, b)
      | none => none

/-- Rust's `str::starts_with` on strings (a byte prefix of valid UTF-8 is a
character-sequence prefix). -/
def strStartsWith (s pre : String) : Bool := pre.data.isPrefixOf s.data

/-- One line of a `Command` oracle's stdout, split on the first tab into
`(completion, description)`, defaulting the description to the empty
string — the `split_once("\t")` match in `get_completions_for_input`. -/
def commandLinePair (line : String) : String × String :=
  match splitOnce '\t' line.data with
  | some (c, d) => (String.mk c, String.mk d)
  | none => (line, "")

/-- `get_completions_for_input` from `src/complete.rs`. -/
def get_completions_for_input (input : Input) (pfx : String) (shell : Shell) :
    List (String × String) :=
  match input with
  | .Literal lit desc =>
    if strStartsWith lit pfx then [(lit, desc.getD "")] else []
  | .Any (.Command cmd) =>
    match shell.shell_out cmd with
    | none => []
    | some stdout =>
      let result := (rustLines stdout).map commandLinePair
      if pfx ≠ "" then result.filter (fun p => strStartsWith p.1 pfx) else result
  | .Any (.Nonterminal nonterm) =>
    if nonterm = "PATH" then
      match shell.complete_paths pfx with
      | none => []
      | some stdout => (rustLines stdout).map (fun line => (line, ""))
    else if nonterm = "DIRECTORY" then
      match shell.complete_directories pfx with
      | none => []
      | some stdout => (rustLines stdout).map (fun line => (line, ""))
    else []

/-- Lexicographic (code-point, equivalently UTF-8 byte) comparison of
character lists: the order Rust's `Ord` uses on `String`. -/
def charListLe : List Char → List Char → Bool
  | [], _ => true
  | _ :: _, [] => false
  | a :: as, b :: bs =>
    if a.toNat < b.toNat then true
    else if b.toNat < a.toNat then false
    else charListLe as bs

/-- The order used by `completions.sort_unstable()` on `Vec<(String, String)>`
as a boolean comparator: lexicographic on the pair, by completion (`.1`) then
description (`.2`). -/
def pairLeB (a b : String × String) : Bool :=
  if a.1.data = b.1.data then charListLe a.2.data b.2.data
  else charListLe a.1.data b.1.data

/-- The pair order as a relation, for sortedness statements. -/
def pairLe (a b : String × String) : Prop := pairLeB a b = true

instance : DecidableRel pairLe := fun a b => by
  unfold pairLe; infer_instance

/-- `Vec::sort_unstable` on `Vec<(String, String)>`: sorting by the
lexicographic pair order (the sorted permutation is unique up to equal
elements, so insertion sort is a faithful model). -/
def sortPairs (l : List (String × String)) : List (String × String) :=
  List.insertionSort pairLe l

/-- The word being completed: `words_before_cursor[completed_word_index]` if
present, the empty string otherwise. -/
def pfxOf (ws : List String) (idx : Nat) : String := (ws.get? idx).getD ""

/-- `get_completions` from `src/complete.rs`. -/
def get_completions (dfa : DFA) (ws : List String) (idx : Nat) (shell : Shell) :
    List (String × String) :=
  match get_match_final_state dfa ws idx with
  | none => []
  | some st =>
    sortPairs (((transOf dfa st).map
      (fun p => get_completions_for_input p.1 (pfxOf ws idx) shell)).flatten)

/-- A transition hop of the backtracking search matches word `k` of the input:
either the label matches anything, or it is a literal equal to that word. -/
def hopMatches (ws : List String) (k : Nat) (inp : Input) : Bool :=
  inp.matches_anything || litMatches ws k inp

/-- The states reachable from the starting state by consuming the first `k`
words along matching transitions: the branches of the backtracking search. -/
def reachableAt (dfa : DFA) (ws : List String) : Nat → List Nat
  | 0 => [dfa.starting_state]
  | k + 1 =>
    (reachableAt dfa ws k).flatMap
      (fun s => ((transOf dfa s).filter (fun p => hopMatches ws k p.1)).map (fun p => p.2))

theorem lookupTrans_length_le (ts : List (Nat × List (Input × Nat))) (s : Nat) :
    (lookupTrans ts s).length ≤ (ts.map (fun p => p.2.length)).sum := by
  induction ts with
  | nil => simp [lookupTrans]
  | cons hd tl ih =>
    obtain ⟨k, v⟩ := hd
    by_cases hk : k = s
    · simp [lookupTrans, hk]
    · simp only [lookupTrans, if_neg hk, List.map_cons, List.sum_cons]
      omega

theorem stackMeasure_append (dfa : DFA) (ws : List String) (idx : Nat)
    (l₁ l₂ : List (Nat × Nat)) :
    stackMeasure dfa ws idx (l₁ ++ l₂) =
      stackMeasure dfa ws idx l₁ + stackMeasure dfa ws idx l₂ := by
  simp [stackMeasure]

theorem stackMeasure_reverse (dfa : DFA) (ws : List String) (idx : Nat)
    (l : List (Nat × Nat)) :
    stackMeasure dfa ws idx l.reverse = stackMeasure dfa ws idx l := by
  simp [stackMeasure, List.sum_reverse]

theorem stackMeasure_map_pair (dfa : DFA) (ws : List String) (idx : Nat)
    (j : Nat) (l : List (Input × Nat)) :
    stackMeasure dfa ws idx (l.map (fun p => (j, p.2))) =
      l.length * fuelBase dfa ^ (searchBound ws idx + 1 - j) := by
  induction l with
  | nil => simp [stackMeasure]
  | cons hd tl ih =>
    simp only [List.map_cons, stackMeasure, List.sum_cons] at ih ⊢
    rw [ih]
    simp only [List.length_cons, entryWeight, Nat.succ_mul]
    omega

/-- The fuel bound suffices: the backtracking loop halts before running out. -/
theorem gmfsGo_fuel_sufficient (dfa : DFA) (ws : List String) (idx : Nat) :
    ∀ (fuel : Nat) (stack : List (Nat × Nat)),
      stackMeasure dfa ws idx stack < fuel → gmfsGo dfa ws idx fuel stack ≠ none := by
  intro fuel
  induction fuel with
  | zero => intro stack h; omega
  | succ fuel ih =>
    intro stack h
    cases stack with
    | nil => simp [gmfsGo]
    | cons top rest =>
      obtain ⟨i, s⟩ := top
      by_cases h1 : ws.length ≤ i
      · simp [gmfsGo, h1]
      · by_cases h2 : idx ≤ i
        · simp [gmfsGo, h1, h2]
        · simp only [gmfsGo, if_neg h1, if_neg h2]
          apply ih
          have hib : i < searchBound ws idx := by
            simp only [searchBound]; omega
          have hmeas :
              stackMeasure dfa ws idx
                ((anyPushes dfa s i ++ litPushes dfa ws s i).reverse ++ rest) <
              stackMeasure dfa ws idx ((i, s) :: rest) := by
            rw [stackMeasure_append, stackMeasure_reverse, stackMeasure_append]
            have hany := stackMeasure_map_pair dfa ws idx (i + 1)
              ((transOf dfa s).filter (fun p => p.1.matches_anything))
            have hlit := stackMeasure_map_pair dfa ws idx (i + 1)
              ((transOf dfa s).filter (fun p => litMatches ws i p.1))
            rw [anyPushes, litPushes, hany, hlit]
            have hlen1 : ((transOf dfa s).filter (fun p => p.1.matches_anything)).length ≤
                (transOf dfa s).length := List.length_filter_le _ _
            have hlen2 : ((transOf dfa s).filter (fun p => litMatches ws i p.1)).length ≤
                (transOf dfa s).length := List.length_filter_le _ _
            have htot : (transOf dfa s).length ≤ totalTrans dfa :=
              lookupTrans_length_le dfa.transitions s
            have hhead : stackMeasure dfa ws idx ((i, s) :: rest) =
                fuelBase dfa ^ (searchBound ws idx + 1 - i) + stackMeasure dfa ws idx rest := by
              simp [stackMeasure, entryWeight]
            rw [hhead]
            have hexp : searchBound ws idx + 1 - i = (searchBound ws idx + 1 - (i + 1)) + 1 := by
              omega
            rw [hexp, pow_succ]
            have hBpos : 0 < fuelBase dfa := by simp only [fuelBase]; omega
            have hpow : 0 < fuelBase dfa ^ (searchBound ws idx + 1 - (i + 1)) :=
              pow_pos hBpos _
            have hB : 2 * (transOf dfa s).length < fuelBase dfa := by
              simp only [fuelBase]; omega
            set P := fuelBase dfa ^ (searchBound ws idx + 1 - (i + 1)) with hP
            set L := (transOf dfa s).length with hL
            set L1 := ((transOf dfa s).filter (fun p => p.1.matches_anything)).length with hL1
            set L2 := ((transOf dfa s).filter (fun p => litMatches ws i p.1)).length with hL2
            have e1 : L1 * P + L2 * P ≤ (L + L) * P := by
              have hs : L1 + L2 ≤ L + L := by omega
              calc L1 * P + L2 * P = (L1 + L2) * P := by ring
                _ ≤ (L + L) * P := Nat.mul_le_mul_right P hs
            have e2 : (L + L) * P < P * fuelBase dfa := by
              rw [Nat.mul_comm P]
              exact (Nat.mul_lt_mul_right hpow).mpr (by omega)
            omega
          omega

/-- Invariant-based soundness of the backtracking search: a returned state is
reachable from the starting state at exactly the requested index. -/
theorem gmfsGo_sound (dfa : DFA) (ws : List String) (idx : Nat) :
    ∀ (fuel : Nat) (stack : List (Nat × Nat)) (r : Nat),
      (∀ e ∈ stack, e.2 ∈ reachableAt dfa ws e.1 ∧ e.1 ≤ searchBound ws idx) →
      gmfsGo dfa ws idx fuel stack = some (some r) →
      r ∈ reachableAt dfa ws (searchBound ws idx) := by
  intro fuel
  induction fuel with
  | zero => intro stack r _ h; simp [gmfsGo] at h
  | succ fuel ih =>
    intro stack r hinv h
    match stack with
    | [] => simp [gmfsGo] at h
    | (i, s) :: rest =>
      have hhead := hinv (i, s) (by simp)
      by_cases h1 : ws.length ≤ i
      · simp only [gmfsGo, if_pos h1, Option.some.injEq] at h
        have hib : i = searchBound ws idx := by
          simp only [searchBound] at hhead ⊢; omega
        rw [← hib, ← h]
        exact hhead.1
      · by_cases h2 : idx ≤ i
        · simp only [gmfsGo, if_neg h1, if_pos h2, Option.some.injEq] at h
          have hib : i = searchBound ws idx := by
            simp only [searchBound] at hhead ⊢; omega
          rw [← hib, ← h]
          exact hhead.1
        · simp only [gmfsGo, if_neg h1, if_neg h2] at h
          apply ih _ r _ h
          intro e he
          rw [List.mem_append, List.mem_reverse, List.mem_append] at he
          have hstep : ∀ p ∈ transOf dfa s, hopMatches ws i p.1 = true →
              p.2 ∈ reachableAt dfa ws (i + 1) := by
            intro p hp hm
            simp only [reachableAt, List.mem_flatMap]
            exact ⟨s, hhead.1, by
              simp only [List.mem_map]
              exact ⟨p, List.mem_filter.mpr ⟨hp, hm⟩, rfl⟩⟩
          have hle : i + 1 ≤ searchBound ws idx := by
            simp only [searchBound]; omega
          rcases he with (hany | hlit) | hrest
          · simp only [anyPushes, List.mem_map, List.mem_filter] at hany
            obtain ⟨p, ⟨hp, hpm⟩, hep⟩ := hany
            rw [← hep]
            exact ⟨hstep p hp (by simp [hopMatches, hpm]), hle⟩
          · simp only [litPushes, List.mem_map, List.mem_filter] at hlit
            obtain ⟨p, ⟨hp, hpm⟩, hep⟩ := hlit
            rw [← hep]
            exact ⟨hstep p hp (by simp [hopMatches, hpm]), hle⟩
          · exact hinv e (List.mem_cons_of_mem _ hrest)

theorem charListLe_total : ∀ l₁ l₂ : List Char, charListLe l₁ l₂ = true ∨ charListLe l₂ l₁ = true := by
  intro l₁
  induction l₁ with
  | nil => intro l₂; left; rfl
  | cons a as ih =>
    intro l₂
    cases l₂ with
    | nil => right; rfl
    | cons b bs =>
      by_cases h1 : a.toNat < b.toNat
      · left; simp [charListLe, h1]
      · by_cases h2 : b.toNat < a.toNat
        · right; simp [charListLe, h2]
        · rcases ih bs with h | h
          · left; simp [charListLe, h1, h2, h]
          · right; simp [charListLe, h1, h2, h]

theorem charListLe_trans : ∀ l₁ l₂ l₃ : List Char,
    charListLe l₁ l₂ = true → charListLe l₂ l₃ = true → charListLe l₁ l₃ = true := by
  intro l₁
  induction l₁ with
  | nil => intro l₂ l₃ _ _; rfl
  | cons a as ih =>
    intro l₂ l₃ h12 h23
    cases l₂ with
    | nil => simp [charListLe] at h12
    | cons b bs =>
      cases l₃ with
      | nil => simp [charListLe] at h23
      | cons c cs =>
        simp only [charListLe] at h12 h23 ⊢
        by_cases hab : a.toNat < b.toNat
        · by_cases hbc : b.toNat < c.toNat
          · simp [show a.toNat < c.toNat by omega]
          · by_cases hcb : c.toNat < b.toNat
            · simp [hbc, hcb] at h23
            · simp [show a.toNat < c.toNat by omega]
        · by_cases hba : b.toNat < a.toNat
          · simp [hab, hba] at h12
          · by_cases hbc : b.toNat < c.toNat
            · simp [show a.toNat < c.toNat by omega]
            · by_cases hcb : c.toNat < b.toNat
              · simp [hbc, hcb] at h23
              · have hac : ¬ a.toNat < c.toNat := by omega
                have hca : ¬ c.toNat < a.toNat := by omega
                simp only [if_neg hab, if_neg hba] at h12
                simp only [if_neg hbc, if_neg hcb] at h23
                simp only [if_neg hac, if_neg hca]
                exact ih bs cs h12 h23

theorem charListLe_antisymm : ∀ l₁ l₂ : List Char,
    charListLe l₁ l₂ = true → charListLe l₂ l₁ = true → l₁ = l₂ := by
  intro l₁
  induction l₁ with
  | nil =>
    intro l₂ _ h21
    cases l₂ with
    | nil => rfl
    | cons b bs => simp [charListLe] at h21
  | cons a as ih =>
    intro l₂ h12 h21
    cases l₂ with
    | nil => simp [charListLe] at h12
    | cons b bs =>
      simp only [charListLe] at h12 h21
      by_cases hab : a.toNat < b.toNat
      · have h1 : ¬ b.toNat < a.toNat := by omega
        simp only [if_neg h1, if_pos hab] at h21
        simp at h21
      · by_cases hba : b.toNat < a.toNat
        · simp [hab, hba] at h12
        · have hvn : a.val.toNat = b.val.toNat := by
            have h : a.toNat = b.toNat := by omega
            simpa [Char.toNat] using h
          have hchar : a = b := Char.ext (UInt32.ext hvn)
          simp only [if_neg hab, if_neg hba] at h12
          simp only [if_neg hba, if_neg hab] at h21
          rw [hchar, ih bs h12 h21]

instance : IsTotal (String × String) pairLe := by
  constructor
  intro a b
  unfold pairLe pairLeB
  by_cases h : a.1.data = b.1.data
  · have h' : b.1.data = a.1.data := h.symm
    rw [if_pos h, if_pos h']
    exact charListLe_total _ _
  · have h' : ¬ b.1.data = a.1.data := fun hc => h hc.symm
    rw [if_neg h, if_neg h']
    exact charListLe_total _ _

instance : IsTrans (String × String) pairLe := by
  constructor
  intro a b c hab hbc
  unfold pairLe pairLeB at hab hbc ⊢
  by_cases h1 : a.1.data = b.1.data
  · by_cases h2 : b.1.data = c.1.data
    · have h3 : a.1.data = c.1.data := h1.trans h2
      simp only [if_pos h1] at hab
      simp only [if_pos h2] at hbc
      simp only [if_pos h3]
      exact charListLe_trans _ _ _ hab hbc
    · have h3 : ¬ a.1.data = c.1.data := by rw [h1]; exact h2
      simp only [if_pos h1] at hab
      simp only [if_neg h2] at hbc
      simp only [if_neg h3]
      rw [h1]; exact hbc
  · by_cases h2 : b.1.data = c.1.data
    · have h3 : ¬ a.1.data = c.1.data := by rw [← h2]; exact h1
      simp only [if_neg h1] at hab
      simp only [if_neg h3]
      rw [← h2]; exact hab
    · simp only [if_neg h1] at hab
      simp only [if_neg h2] at hbc
      by_cases h3 : a.1.data = c.1.data
      · exfalso
        apply h1
        rw [h3] at hab
        exact (charListLe_antisymm _ _ hbc hab).symm ▸ h3
      · simp only [if_neg h3]
        exact charListLe_trans _ _ _ hab hbc

theorem map_fst_pair (j : Nat) (l : List (Input × Nat)) :
    (l.map (fun p => (j, p.2))).map Prod.fst = List.replicate l.length j := by
  induction l with
  | nil => rfl
  | cons hd tl ih => simp [ih, List.replicate_succ]

/-- C1 (amended): for every DFA, word list, completed-word index and shell,
the list returned by `get_completions` is sorted in the lexicographic pair
order (ascending by completion, then description).  Duplicate pairs are NOT
removed (see the counterexample). -/
theorem get_completions_sorted (dfa : DFA) (ws : List String) (idx : Nat) (shell : Shell) :
    List.Sorted pairLe (get_completions dfa ws idx shell) := by
  unfold get_completions
  cases get_match_final_state dfa ws idx with
  | none => simp
  | some st => exact List.sorted_insertionSort pairLe _

/-- A shell oracle whose `shell_out` always prints `foo`. -/
def dupShell : Shell := ⟨fun _ => some "foo", fun _ => some "", fun _ => some ""⟩

/-- A DFA whose starting state has two distinct `Command` transitions that
produce the same completion line. -/
def dupDFA : DFA :=
  ⟨0, [], [(0, [(Input.Any (MatchAnythingInput.Command "echo foo"), 1),
                (Input.Any (MatchAnythingInput.Command "printf foo"), 2)])]⟩

/-- C1 counterexample: `get_completions` performs `sort_unstable` but no
deduplication, so two transitions producing the same `(completion,
description)` pair yield a duplicate in the output, contradicting the claim
that the result contains no duplicate pair. -/
theorem get_completions_dup_counterexample :
    get_completions dupDFA [] 0 dupShell = [("foo", ""), ("foo", "")] ∧
    ¬ (get_completions dupDFA [] 0 dupShell).Nodup := by
  constructor
  · decide
  · decide

/-- C2 (amended): branches are explored LIFO and `Any` alternatives are
pushed onto the backtracking stack before `Literal` alternatives, so after
one step of the loop every matching literal successor sits nearer the top of
the stack than every wildcard successor: a literal path out of a state is
attempted at least as early as any wildcard path, not the other way
around. -/
theorem gmfs_any_pushed_before_literal (dfa : DFA) (ws : List String) (idx : Nat)
    (i s : Nat) (rest : List (Nat × Nat)) (fuel : Nat)
    (h1 : i < ws.length) (h2 : i < idx) :
    gmfsGo dfa ws idx (fuel + 1) ((i, s) :: rest) =
      gmfsGo dfa ws idx fuel
        ((litPushes dfa ws s i).reverse ++ ((anyPushes dfa s i).reverse ++ rest)) := by
  simp only [gmfsGo, if_neg (Nat.not_le.mpr h1), if_neg (Nat.not_le.mpr h2),
    List.reverse_append, List.append_assoc]

/-- A DFA whose starting state has both a wildcard transition (to state 1)
and a literal transition matching `a` (to state 2). -/
def lifoDFA : DFA :=
  ⟨0, [], [(0, [(Input.Any (MatchAnythingInput.Nonterminal "X"), 1),
                (Input.Literal "a" none, 2)])]⟩

/-- C2 counterexample: from state 0 of `lifoDFA` on input `["a"]` both a
wildcard branch (to state 1) and a literal branch (to state 2) exist and
both reach the requested index 1.  The wildcard is pushed first, so LIFO
popping attempts the literal branch first: the next stack after one step has
the literal entry `(1, 2)` on top, and the search returns state 2, the
literal target — the wildcard path is attempted strictly later than the
literal path, contradicting the claim. -/
theorem gmfs_wildcard_not_first_counterexample :
    anyPushes lifoDFA 0 0 = [(1, 1)] ∧
    litPushes lifoDFA ["a"] 0 0 = [(1, 2)] ∧
    (anyPushes lifoDFA 0 0 ++ litPushes lifoDFA ["a"] 0 0).reverse = [(1, 2), (1, 1)] ∧
    get_match_final_state lifoDFA ["a"] 1 = some 2 ∧
    1 ∈ reachableAt lifoDFA ["a"] 1 := by
  refine ⟨by decide, by decide, by decide, by decide, by decide⟩

/-- Witness for the amended C2 statement at a concrete input. -/
theorem gmfs_any_pushed_before_literal_witness :
    gmfsGo lifoDFA ["a"] 1 1 [(0, 0)] =
      gmfsGo lifoDFA ["a"] 1 0
        ((litPushes lifoDFA ["a"] 0 0).reverse ++ ((anyPushes lifoDFA 0 0).reverse ++ [])) :=
  gmfs_any_pushed_before_literal lifoDFA ["a"] 1 0 0 [] 0 (by decide) (by decide)

/-- C9: the backtracking search halts within the explicit fuel bound
`initFuel` (so `get_match_final_state` never spins on empty-match cycles),
and every entry pushed onto the backtracking stack while processing an entry
with input index `i` carries input index `i + 1`: the input index strictly
increases across every transition hop. -/
theorem gmfs_terminates (dfa : DFA) (ws : List String) (idx : Nat) :
    gmfsGo dfa ws idx (initFuel dfa ws idx) [(0, dfa.starting_state)] =
      some (get_match_final_state dfa ws idx) ∧
    ∀ s i : Nat,
      (anyPushes dfa s i ++ litPushes dfa ws s i).map Prod.fst =
        List.replicate (anyPushes dfa s i ++ litPushes dfa ws s i).length (i + 1) := by
  constructor
  · have hm : stackMeasure dfa ws idx [(0, dfa.starting_state)] < initFuel dfa ws idx := by
      simp [stackMeasure, entryWeight, initFuel]
    have hsuff := gmfsGo_fuel_sufficient dfa ws idx (initFuel dfa ws idx)
      [(0, dfa.starting_state)] hm
    cases heq : gmfsGo dfa ws idx (initFuel dfa ws idx) [(0, dfa.starting_state)] with
    | none => exact absurd heq hsuff
    | some r => simp [get_match_final_state, heq]
  · intro s i
    simp only [anyPushes, litPushes, List.map_append, map_fst_pair,
      List.length_append, List.length_map]
    rw [List.replicate_add]

/-- C10: with `completed_word_index = 0`, `get_match_final_state` returns the
starting state for every DFA and word list, and `get_completions` enumerates
its candidates from the starting state (never taking the empty no-state
branch). -/
theorem gmfs_index_zero (dfa : DFA) (ws : List String) (shell : Shell) :
    get_match_final_state dfa ws 0 = some dfa.starting_state ∧
    get_completions dfa ws 0 shell =
      sortPairs (((transOf dfa dfa.starting_state).map
        (fun p => get_completions_for_input p.1 (pfxOf ws 0) shell)).flatten) := by
  have hgo : ∀ x : Nat, gmfsGo dfa ws 0 (x + 1) [(0, dfa.starting_state)] =
      some (some dfa.starting_state) := by
    intro x
    by_cases h : ws.length ≤ 0
    · simp [gmfsGo, h]
    · simp [gmfsGo, h]
  have h0 : get_match_final_state dfa ws 0 = some dfa.starting_state := by
    unfold get_match_final_state initFuel
    rw [hgo]
  refine ⟨h0, ?_⟩
  unfold get_completions
  rw [h0]

/-- C4: the backtracking loop returns the current state as soon as the input
index reaches `len W` or the completed-word index; if no branch of the
search reaches the requested index `min (len W) i` then `get_match_final_state`
returns no state, and in that case `get_completions` returns the empty
list. -/
theorem gmfs_return_conditions (dfa : DFA) (ws : List String) (idx : Nat) (shell : Shell) :
    (∀ (fuel i s : Nat) (rest : List (Nat × Nat)), (ws.length ≤ i ∨ idx ≤ i) →
        gmfsGo dfa ws idx (fuel + 1) ((i, s) :: rest) = some (some s)) ∧
    ((∀ s, s ∉ reachableAt dfa ws (searchBound ws idx)) →
        get_match_final_state dfa ws idx = none) ∧
    (get_match_final_state dfa ws idx = none → get_completions dfa ws idx shell = []) := by
  refine ⟨?_, ?_, ?_⟩
  · intro fuel i s rest h
    by_cases h1 : ws.length ≤ i
    · simp [gmfsGo, h1]
    · have h2 : idx ≤ i := h.resolve_left h1
      simp [gmfsGo, h1, h2]
  · intro hnone
    unfold get_match_final_state
    cases heq : gmfsGo dfa ws idx (initFuel dfa ws idx) [(0, dfa.starting_state)] with
    | none => rfl
    | some r =>
      cases r with
      | none => rfl
      | some st =>
        exfalso
        apply hnone st
        apply gmfsGo_sound dfa ws idx _ _ st _ heq
        intro e he
        simp only [List.mem_singleton] at he
        subst he
        exact ⟨by simp [reachableAt], Nat.zero_le _⟩
  · intro h
    unfold get_completions
    rw [h]

/-- A DFA whose only transition is the literal `a`, which cannot match the
input word `b`. -/
def mismatchDFA : DFA := ⟨0, [], [(0, [(Input.Literal "a" none, 1)])]⟩

/-- Witness for C4 at concrete inputs: an immediate return once the index
reaches the bound, and the empty completion list when no branch reaches the
requested index. -/
theorem gmfs_return_conditions_witness :
    gmfsGo mismatchDFA ["b"] 1 (3 + 1) [(1, 5)] = some (some 5) ∧
    get_match_final_state mismatchDFA ["b"] 1 = none ∧
    get_completions mismatchDFA ["b"] 1 dupShell = [] := by
  refine ⟨(gmfs_return_conditions mismatchDFA ["b"] 1 dupShell).1 3 1 5 [] (Or.inl (by decide)),
    (gmfs_return_conditions mismatchDFA ["b"] 1 dupShell).2.1 ?_,
    (gmfs_return_conditions mismatchDFA ["b"] 1 dupShell).2.2 (by decide)⟩
  intro s
  have h : reachableAt mismatchDFA ["b"] (searchBound ["b"] 1) = [] := by decide
  rw [h]
  exact List.not_mem_nil s

/-- `Expr` from `src/grammar.rs` (shared `Rc` subtrees are represented by
plain values; all the algorithms are pure functions of the structure). -/
inductive Expr where
  | Literal (token : String)
  | Variable (name : String)
  | Sequence (children : List Expr)
  | Alternative (children : List Expr)
  | Optional (child : Expr)
  | Many1 (child : Expr)

/-- First-match association-list lookup, the model of `UstrMap::get`
(the maps built below always have distinct keys). -/
def lookupVar : List (String × Expr) → String → Option Expr
  | [], _ => none
  | (k, v) :: rest, n => if k = n then some v else lookupVar rest n

mutual

/-- `resolve_variables` from `src/grammar.rs`: substitute every `Variable`
whose name the map defines by the mapped expression (without recursing into
the replacement); all other nodes are rebuilt structurally.  The `Rc::ptr_eq`
sharing optimisation of the source is value-transparent and is dropped. -/
def resolve_variables (vars : List (String × Expr)) : Expr → Expr
  | .Literal s => .Literal s
  | .Variable name =>
    match lookupVar vars name with
    | some replacement => replacement
    | none => .Variable name
  | .Sequence children => .Sequence (resolveList vars children)
  | .Alternative children => .Alternative (resolveList vars children)
  | .Optional child => .Optional (resolve_variables vars child)
  | .Many1 child => .Many1 (resolve_variables vars child)

/-- `resolve_variables` mapped over the children of a node. -/
def resolveList (vars : List (String × Expr)) : List Expr → List Expr
  | [] => []
  | e :: rest => resolve_variables vars e :: resolveList vars rest

end

/-- Whether the map defines variable `n`. -/
def definesVar (vars : List (String × Expr)) (n : String) : Bool :=
  (lookupVar vars n).isSome

mutual

/-- An expression is resolved with respect to `vars` when it contains no
`Variable` node whose name the map defines. -/
def resolvedWrt (vars : List (String × Expr)) : Expr → Bool
  | .Literal _ => true
  | .Variable n => !(definesVar vars n)
  | .Sequence children => resolvedWrtList vars children
  | .Alternative children => resolvedWrtList vars children
  | .Optional child => resolvedWrt vars child
  | .Many1 child => resolvedWrt vars child

/-- `resolvedWrt` over all children. -/
def resolvedWrtList (vars : List (String × Expr)) : List Expr → Bool
  | [] => true
  | e :: rest => resolvedWrt vars e && resolvedWrtList vars rest

end

theorem resolve_variables_aux (n : Nat) :
    (∀ (e : Expr), sizeOf e ≤ n → ∀ vars, resolvedWrt vars e = true →
      resolve_variables vars e = e) ∧
    (∀ (cs : List Expr), sizeOf cs ≤ n → ∀ vars, resolvedWrtList vars cs = true →
      resolveList vars cs = cs) := by
  induction n using Nat.strong_induction_on with
  | _ n ih =>
    constructor
    · intro e hsz vars hres
      match e with
      | .Literal s => rfl
      | .Variable nm =>
        simp only [resolvedWrt, Bool.not_eq_true'] at hres
        simp only [resolve_variables]
        cases hlk : lookupVar vars nm with
        | none => rfl
        | some r =>
          exfalso
          simp [definesVar, hlk] at hres
      | .Sequence cs =>
        have hlt : sizeOf cs < n := by
          have : sizeOf (Expr.Sequence cs) = 1 + sizeOf cs := by simp
          omega
        simp only [resolve_variables]
        rw [(ih (sizeOf cs) hlt).2 cs le_rfl vars hres]
      | .Alternative cs =>
        have hlt : sizeOf cs < n := by
          have : sizeOf (Expr.Alternative cs) = 1 + sizeOf cs := by simp
          omega
        simp only [resolve_variables]
        rw [(ih (sizeOf cs) hlt).2 cs le_rfl vars hres]
      | .Optional c =>
        have hlt : sizeOf c < n := by
          have : sizeOf (Expr.Optional c) = 1 + sizeOf c := by simp
          omega
        simp only [resolve_variables]
        rw [(ih (sizeOf c) hlt).1 c le_rfl vars hres]
      | .Many1 c =>
        have hlt : sizeOf c < n := by
          have : sizeOf (Expr.Many1 c) = 1 + sizeOf c := by simp
          omega
        simp only [resolve_variables]
        rw [(ih (sizeOf c) hlt).1 c le_rfl vars hres]
    · intro cs hsz vars hres
      match cs with
      | [] => rfl
      | c :: rest =>
        simp only [resolvedWrtList, Bool.and_eq_true] at hres
        have h1 : sizeOf c < n := by
          have : sizeOf (c :: rest) = 1 + sizeOf c + sizeOf rest := by simp
          have hp : 0 < sizeOf rest := by cases rest <;> simp
          omega
        have h2 : sizeOf rest < n := by
          have : sizeOf (c :: rest) = 1 + sizeOf c + sizeOf rest := by simp
          have hp : 0 < sizeOf c := by cases c <;> simp
          omega
        simp only [resolveList]
        rw [(ih (sizeOf c) h1).1 c le_rfl vars hres.1,
          (ih (sizeOf rest) h2).2 rest le_rfl vars hres.2]

/-- C8: variable resolution is idempotent — resolving an expression that
contains no `Variable` whose name the map defines returns it unchanged. -/
theorem resolve_variables_idempotent (vars : List (String × Expr)) (e : Expr)
    (h : resolvedWrt vars e = true) : resolve_variables vars e = e :=
  (resolve_variables_aux (sizeOf e)).1 e le_rfl vars h

/-- Witness for C8 at a concrete map and expression. -/
theorem resolve_variables_idempotent_witness :
    resolvedWrt [("X", Expr.Literal "y")]
        (Expr.Sequence [Expr.Literal "a", Expr.Variable "FILE"]) = true ∧
    resolve_variables [("X", Expr.Literal "y")]
        (Expr.Sequence [Expr.Literal "a", Expr.Variable "FILE"]) =
      Expr.Sequence [Expr.Literal "a", Expr.Variable "FILE"] :=
  ⟨by decide, resolve_variables_idempotent _ _ (by decide)⟩

/-- `Statement` from `src/grammar.rs`. -/
inductive Statement where
  | CallVariant (lhs : String) (rhs : Expr)
  | VariableDefinition (symbol : String) (rhs : Expr)

/-- `Grammar` from `src/grammar.rs`. -/
structure Grammar where
  statements : List Statement

/-- `Validated` from `src/grammar.rs`. -/
structure Validated where
  command : String
  expr : Expr

/-- Modelled from the spec: the error taxonomy of the library root
(`complgen::Error`, not part of the sources here). -/
inductive Error where
  | ParsingError (details : String)
  | TrailingInput (rest : String)
  | EmptyGrammar
  | VaryingCommandNames (names : List String)
  | CyclicVariables (cycle : List String)
  | ShellInvocationFailed (cmd stdout stderr : String)
deriving DecidableEq, Repr

/-- The command names of the call variants, in statement order: the first
`filter_map` of `Grammar::validate`. -/
def commandNames (g : Grammar) : List String :=
  g.statements.filterMap (fun st =>
    match st with
    | .CallVariant lhs _ => some lhs
    | .VariableDefinition _ _ => none)

/-- The lexicographic string order used by `commands.sort_unstable()`. -/
def strLe (a b : String) : Prop := charListLe a.data b.data = true

instance : DecidableRel strLe := fun a b => by
  unfold strLe; infer_instance

/-- `Vec::dedup`: remove consecutive repeated elements. -/
def dedupAdj : List String → List String
  | [] => []
  | [a] => [a]
  | a :: b :: rest => if a = b then dedupAdj (b :: rest) else a :: dedupAdj (b :: rest)

/-- The sorted, deduplicated command-name list of
`commands.sort_unstable(); commands.dedup()`. -/
def sortedCommands (g : Grammar) : List String :=
  dedupAdj (List.insertionSort strLe (commandNames g))

/-- The call-variant bodies, in statement order. -/
def callVariantBodies (g : Grammar) : List Expr :=
  g.statements.filterMap (fun st =>
    match st with
    | .CallVariant _ rhs => some rhs
    | .VariableDefinition _ _ => none)

/-- Insert-or-replace into an association list: the model of
`UstrMap::insert`/`get_mut` assignment (keys stay distinct). -/
def insertAssoc : List (String × Expr) → String → Expr → List (String × Expr)
  | [], k, v => [(k, v)]
  | (k', v') :: rest, k, v =>
    if k' = k then (k, v) :: rest else (k', v') :: insertAssoc rest k v

/-- The variable-definition map collected by `Grammar::validate` (later
definitions of the same symbol override earlier ones, as for a `HashMap`
collect). -/
def collectDefs (stmts : List Statement) : List (String × Expr) :=
  stmts.foldl (fun m st =>
    match st with
    | .VariableDefinition sym rhs => insertAssoc m sym rhs
    | .CallVariant _ _ => m) []

mutual

/-- The names of the variables occurring in an expression ("B appears in the
body of A" induces the dependency edge A → B). -/
def exprVars : Expr → List String
  | .Literal _ => []
  | .Variable n => [n]
  | .Sequence children => exprVarsList children
  | .Alternative children => exprVarsList children
  | .Optional child => exprVars child
  | .Many1 child => exprVars child

/-- `exprVars` over all children. -/
def exprVarsList : List Expr → List String
  | [] => []
  | e :: rest => exprVars e ++ exprVarsList rest

end

/-- A definition is ready for the topological order when none of the
variables of its body is a key of the remaining definitions. -/
def depReady (remaining : List (String × Expr)) (p : String × Expr) : Bool :=
  !(exprVars p.2).any (fun v => remaining.any (fun q => q.1 == v))

/-- Kahn-style peeling with cycle detection: repeatedly emit the definitions
with no dependency among the remaining ones; if a pass emits nothing while
definitions remain, the remaining definitions contain a dependency cycle. -/
def topoGo : Nat → List (String × Expr) → Except Error (List String)
  | _, [] => .ok []
  | 0, remaining => .error (.CyclicVariables (remaining.map Prod.fst))
  | fuel + 1, remaining =>
    let ready := remaining.filter (depReady remaining)
    if ready.isEmpty then .error (.CyclicVariables (remaining.map Prod.fst))
    else
      match topoGo fuel (remaining.filter (fun p => !(depReady remaining p))) with
      | .error e => .error e
      | .ok rest => .ok (ready.map Prod.fst ++ rest)

/-- Modelled from the spec: `get_topologically_ordered_variables` — its body
in `src/grammar.rs` is a `todo!()` placeholder, so it is modelled from the
spec's words: build the dependency graph over the variable definitions (edge
`A → B` when `B` appears in the body of `A`), perform a topological sort and
fail with `CyclicVariables{cycle}` if any cycle exists.  The iteration count
is bounded by the number of definitions, so the sort always terminates. -/
def get_topologically_ordered_variables (defs : List (String × Expr)) :
    Except Error (List String) :=
  topoGo defs.length defs

/-- The resolution loop of `Grammar::validate`: in topological order, replace
each definition's body by its resolution against the current map. -/
def resolveLoop : List String → List (String × Expr) → List (String × Expr)
  | [], defs => defs
  | v :: rest, defs =>
    match lookupVar defs v with
    | some e => resolveLoop rest (insertAssoc defs v (resolve_variables defs e))
    | none => resolveLoop rest defs

/-- `Grammar::validate` from `src/grammar.rs` (the topological ordering it
calls is modelled from the spec, see
`get_topologically_ordered_variables`). -/
def Grammar.validate (g : Grammar) : Except Error Validated :=
  let commands := commandNames g
  if commands.isEmpty then .error .EmptyGrammar
  else
    let cmds := dedupAdj (List.insertionSort strLe commands)
    if 1 < cmds.length then .error (.VaryingCommandNames cmds)
    else
      let command := cmds.headD ""
      let call_variants := callVariantBodies g
      let expr0 :=
        if call_variants.length = 1 then call_variants.headD (Expr.Literal "")
        else Expr.Alternative call_variants
      match get_topologically_ordered_variables (collectDefs g.statements) with
      | .error e => .error e
      | .ok order =>
        let defs2 := resolveLoop order (collectDefs g.statements)
        .ok ⟨command, resolve_variables defs2 expr0⟩

theorem dedupAdj_ne_nil : ∀ l : List String, l ≠ [] → dedupAdj l ≠ [] := by
  intro l
  induction l with
  | nil => simp
  | cons a rest ih =>
    intro _
    cases rest with
    | nil => simp [dedupAdj]
    | cons b rest2 =>
      by_cases hab : a = b
      · rw [show dedupAdj (a :: b :: rest2) = dedupAdj (b :: rest2) by
          simp [dedupAdj, hab]]
        exact ih (by simp)
      · rw [show dedupAdj (a :: b :: rest2) = a :: dedupAdj (b :: rest2) by
          simp [dedupAdj, hab]]
        simp

theorem mem_dedupAdj : ∀ (l : List String) (x : String), x ∈ dedupAdj l ↔ x ∈ l := by
  intro l
  induction l with
  | nil => simp [dedupAdj]
  | cons a rest ih =>
    intro x
    cases rest with
    | nil => simp [dedupAdj]
    | cons b rest2 =>
      by_cases hab : a = b
      · subst hab
        rw [show dedupAdj (a :: a :: rest2) = dedupAdj (a :: rest2) by
          simp [dedupAdj]]
        rw [ih x]
        simp only [List.mem_cons]
        tauto
      · rw [show dedupAdj (a :: b :: rest2) = a :: dedupAdj (b :: rest2) by
          simp [dedupAdj, hab]]
        simp [ih x]

/-- C5: a grammar with no call-variant statement fails validation with
`EmptyGrammar`. -/
theorem validate_empty_grammar (g : Grammar) (h : commandNames g = []) :
    g.validate = .error .EmptyGrammar := by
  simp [Grammar.validate, h]

/-- Witness for C5: a grammar consisting of a single variable definition. -/
theorem validate_empty_grammar_witness :
    (Grammar.mk [Statement.VariableDefinition "A" (Expr.Literal "x")]).validate =
      Except.error Error.EmptyGrammar :=
  validate_empty_grammar _ (by rfl)

/-- C6: when the call variants use more than one distinct command name,
validation fails with `VaryingCommandNames` carrying the sorted,
deduplicated name list; when validation succeeds, the validated command is
the single name shared by every call variant. -/
theorem validate_single_command (g : Grammar) :
    (1 < (sortedCommands g).length →
      g.validate = .error (.VaryingCommandNames (sortedCommands g))) ∧
    (∀ v, g.validate = .ok v →
      v.command ∈ commandNames g ∧ ∀ c ∈ commandNames g, c = v.command) := by
  constructor
  · intro hlen
    unfold sortedCommands at hlen
    have hne : (commandNames g).isEmpty = false := by
      cases hcn : commandNames g with
      | nil =>
        rw [hcn] at hlen
        simp [List.insertionSort, dedupAdj] at hlen
      | cons a rest => rfl
    simp [Grammar.validate, hne, hlen, sortedCommands]
  · intro v h
    simp only [Grammar.validate] at h
    split at h
    · exact absurd h (by simp)
    · split at h
      · exact absurd h (by simp)
      · rename_i h0 h1
        split at h
        · exact absurd h (by simp)
        · rename_i order heq
          have hcne : commandNames g ≠ [] := by
            intro hc
            rw [hc] at h0
            simp at h0
          have hsne : List.insertionSort strLe (commandNames g) ≠ [] := by
            intro hs
            apply hcne
            have hp := List.perm_insertionSort strLe (commandNames g)
            rw [hs] at hp
            exact hp.symm.eq_nil
          have hdne := dedupAdj_ne_nil _ hsne
          have hlen1 : (dedupAdj (List.insertionSort strLe (commandNames g))).length = 1 := by
            have hpos := List.length_pos.mpr hdne
            omega
          obtain ⟨c, hc⟩ := List.length_eq_one.mp hlen1
          have hperm := List.perm_insertionSort strLe (commandNames g)
          have hmemc : ∀ x ∈ commandNames g, x = c := by
            intro x hx
            have hx2 : x ∈ dedupAdj (List.insertionSort strLe (commandNames g)) :=
              (mem_dedupAdj _ x).mpr (hperm.symm.subset hx)
            rw [hc] at hx2
            simpa using hx2
          have hcm : c ∈ commandNames g := by
            have : c ∈ dedupAdj (List.insertionSort strLe (commandNames g)) := by
              rw [hc]; simp
            exact hperm.subset ((mem_dedupAdj _ c).mp this)
          have hv : v.command = c := by
            injection h with h2
            rw [← h2]
            simp [hc]
          rw [hv]
          exact ⟨hcm, hmemc⟩

/-- Witness for C6 at concrete grammars: two distinct command names produce
`VaryingCommandNames`, and a single-variant grammar validates to its
command. -/
theorem validate_single_command_witness :
    (Grammar.mk [Statement.CallVariant "foo" (Expr.Literal "a"),
                 Statement.CallVariant "baz" (Expr.Literal "b")]).validate =
      Except.error (Error.VaryingCommandNames ["baz", "foo"]) ∧
    ((⟨"foo", Expr.Literal "bar"⟩ : Validated).command ∈
        commandNames (Grammar.mk [Statement.CallVariant "foo" (Expr.Literal "bar")]) ∧
      ∀ c ∈ commandNames (Grammar.mk [Statement.CallVariant "foo" (Expr.Literal "bar")]),
        c = (⟨"foo", Expr.Literal "bar"⟩ : Validated).command) := by
  constructor
  · have h := (validate_single_command (Grammar.mk
      [Statement.CallVariant "foo" (Expr.Literal "a"),
       Statement.CallVariant "baz" (Expr.Literal "b")])).1 (by decide)
    rw [show sortedCommands (Grammar.mk
      [Statement.CallVariant "foo" (Expr.Literal "a"),
       Statement.CallVariant "baz" (Expr.Literal "b")]) = ["baz", "foo"] from rfl] at h
    exact h
  · exact (validate_single_command (Grammar.mk
      [Statement.CallVariant "foo" (Expr.Literal "bar")])).2
      ⟨"foo", Expr.Literal "bar"⟩ (by rfl)

/-- The dependency edge of the variable graph: `A → B` when `B` appears in
the body of `A`. -/
def depEdge (defs : List (String × Expr)) (a b : String) : Prop :=
  ∃ body, lookupVar defs a = some body ∧ b ∈ exprVars body

/-- An explicit dependency cycle through the variable definitions: a
nonempty list of names each of which depends on the next, cyclically. -/
def IsDepCycle (defs : List (String × Expr)) (cyc : List String) : Prop :=
  cyc ≠ [] ∧ ∀ i < cyc.length, ∃ a b, cyc.get? i = some a ∧
    cyc.get? ((i + 1) % cyc.length) = some b ∧ depEdge defs a b

theorem lookupVar_mem : ∀ (l : List (String × Expr)) (k : String) (v : Expr),
    lookupVar l k = some v → (k, v) ∈ l := by
  intro l
  induction l with
  | nil => intro k v h; simp [lookupVar] at h
  | cons hd tl ih =>
    intro k v h
    obtain ⟨k', v'⟩ := hd
    by_cases hk : k' = k
    · subst hk
      rw [lookupVar, if_pos rfl] at h
      injection h with h
      simp [h]
    · rw [lookupVar, if_neg hk] at h
      exact List.mem_cons_of_mem _ (ih k v h)

/-- When a nonempty set of definitions each depends on another member of the
set, the Kahn peeling can never exhaust them and reports a cycle. -/
theorem topoGo_stuck (S : List String) (a0 : String) (ha0 : a0 ∈ S) :
    ∀ (fuel : Nat) (remaining : List (String × Expr)),
      (∀ a ∈ S, ∃ b ∈ S, ∃ body, (a, body) ∈ remaining ∧ b ∈ exprVars body) →
      ∃ c, topoGo fuel remaining = .error (.CyclicVariables c) := by
  intro fuel
  induction fuel with
  | zero =>
    intro remaining hinv
    match remaining with
    | [] =>
      obtain ⟨b, _, body, hmem, _⟩ := hinv a0 ha0
      exact absurd hmem (List.not_mem_nil _)
    | r :: rs => exact ⟨_, rfl⟩
  | succ fuel ih =>
    intro remaining hinv
    match remaining with
    | [] =>
      obtain ⟨b, _, body, hmem, _⟩ := hinv a0 ha0
      exact absurd hmem (List.not_mem_nil _)
    | r :: rs =>
      by_cases hready : ((r :: rs).filter (depReady (r :: rs))).isEmpty
      · refine ⟨(r :: rs).map Prod.fst, ?_⟩
        simp only [topoGo]
        rw [if_pos hready]
      · have hinv' : ∀ a ∈ S, ∃ b ∈ S, ∃ body,
            (a, body) ∈ (r :: rs).filter (fun p => !(depReady (r :: rs) p)) ∧
            b ∈ exprVars body := by
          intro a haS
          obtain ⟨b, hbS, body, hmem, hbv⟩ := hinv a haS
          obtain ⟨b', _, bodyb, hmemb, _⟩ := hinv b hbS
          refine ⟨b, hbS, body, ?_, hbv⟩
          rw [List.mem_filter]
          refine ⟨hmem, ?_⟩
          have hany : (exprVars body).any
              (fun v => (r :: rs).any (fun q => q.1 == v)) = true := by
            rw [List.any_eq_true]
            refine ⟨b, hbv, ?_⟩
            rw [List.any_eq_true]
            exact ⟨(b, bodyb), hmemb, by simp⟩
          show (!(depReady (r :: rs) (a, body))) = true
          simp only [depReady, Bool.not_not]
          exact hany
        obtain ⟨c, hc⟩ := ih _ hinv'
        refine ⟨c, ?_⟩
        simp only [topoGo]
        rw [if_neg hready, hc]

/-- C3 (amended): for every grammar that passes the command-name checks (at
least one call variant, all sharing one name) and whose variable definitions
form a dependency cycle, validation fails with a `CyclicVariables` error;
the modelled topological sort is bounded by the number of definitions, so
validation terminates. -/
theorem validate_cyclic_variables (g : Grammar)
    (hne : commandNames g ≠ [])
    (hone : ¬ 1 < (sortedCommands g).length)
    (hcyc : ∃ cyc, IsDepCycle (collectDefs g.statements) cyc) :
    ∃ c, g.validate = .error (.CyclicVariables c) := by
  obtain ⟨cyc, hcne, hsucc⟩ := hcyc
  have hinv : ∀ a ∈ cyc, ∃ b ∈ cyc, ∃ body,
      (a, body) ∈ collectDefs g.statements ∧ b ∈ exprVars body := by
    intro a ha
    obtain ⟨i, hi⟩ := List.mem_iff_get?.mp ha
    have hilen : i < cyc.length := by
      rcases List.get?_eq_some.mp hi with ⟨hl, _⟩
      exact hl
    obtain ⟨a', b, ha', hb, hedge⟩ := hsucc i hilen
    rw [hi] at ha'
    injection ha' with ha'
    subst ha'
    obtain ⟨body, hlk, hbv⟩ := hedge
    exact ⟨b, List.get?_mem hb, body, lookupVar_mem _ _ _ hlk, hbv⟩
  obtain ⟨a0, ha0⟩ : ∃ a, a ∈ cyc := by
    cases cyc with
    | nil => exact absurd rfl hcne
    | cons c cs => exact ⟨c, by simp⟩
  obtain ⟨c, hc⟩ := topoGo_stuck cyc a0 ha0
    (collectDefs g.statements).length (collectDefs g.statements) hinv
  have hne' : (commandNames g).isEmpty = false := by
    cases hcn : commandNames g with
    | nil => exact absurd hcn hne
    | cons a rest => rfl
  unfold sortedCommands at hone
  refine ⟨c, ?_⟩
  simp only [Grammar.validate, get_topologically_ordered_variables, hne',
    Bool.false_eq_true, if_false, if_neg hone, hc]

/-- A grammar whose definitions are cyclic but which has no call variant:
validation reports `EmptyGrammar`, not `CyclicVariables`. -/
def cyclicEmptyGrammar : Grammar :=
  ⟨[Statement.VariableDefinition "A" (Expr.Variable "A")]⟩

/-- C3 counterexample: the command-name checks precede cycle detection, so a
grammar with cyclic variable definitions but no call variant fails with
`EmptyGrammar`, contradicting the claim that every grammar with cyclic
definitions fails with `CyclicVariables`. -/
theorem validate_cyclic_counterexample :
    IsDepCycle (collectDefs cyclicEmptyGrammar.statements) ["A"] ∧
    cyclicEmptyGrammar.validate = .error .EmptyGrammar ∧
    ∀ c, cyclicEmptyGrammar.validate ≠ .error (.CyclicVariables c) := by
  refine ⟨⟨by simp, ?_⟩, rfl, ?_⟩
  · intro i hi
    have h0 : i = 0 := by
      simp only [List.length_singleton] at hi
      omega
    subst h0
    exact ⟨"A", "A", rfl, rfl, ⟨Expr.Variable "A", rfl, by simp [exprVars]⟩⟩
  · intro c h
    rw [show cyclicEmptyGrammar.validate = .error .EmptyGrammar from rfl] at h
    simp at h

/-- A grammar with one call variant and one self-referential definition. -/
def cyclicOkGrammar : Grammar :=
  ⟨[Statement.CallVariant "foo" (Expr.Literal "bar"),
    Statement.VariableDefinition "A" (Expr.Variable "A")]⟩

/-- Witness for the amended C3 statement at a concrete grammar. -/
theorem validate_cyclic_variables_witness :
    ∃ c, cyclicOkGrammar.validate = .error (.CyclicVariables c) := by
  apply validate_cyclic_variables
  · decide
  · decide
  · refine ⟨["A"], by simp, ?_⟩
    intro i hi
    have h0 : i = 0 := by
      simp only [List.length_singleton] at hi
      omega
    subst h0
    exact ⟨"A", "A", rfl, rfl, ⟨Expr.Variable "A", rfl, by simp [exprVars]⟩⟩

/-- The character class of `terminal` tokens:
`c.is_ascii() && (is_alphanumeric(c as u8) || c == '-' || c == '+' || c == '_')`
(the Lean `Char.isAlphanum` is exactly ASCII alphanumeric). -/
def isTermChar (c : Char) : Bool :=
  c.isAlphanum || c = '-' || c = '+' || c = '_'

/-- The characters accepted after a backslash: `one_of("()[]<>.|;")`. -/
def escapables : List Char := ['(', ')', '[', ']', '<', '>', '.', '|', ';']

/-- The loop of nom's `escaped(take_while1(is_terminal_char), '\\',
one_of("()[]<>.|;"))`: alternate runs of terminal characters and escaped
characters, returning the remaining suffix (`none` models a bad or
truncated escape).  The fuel `length + 1` always suffices because every
iteration consumes at least one character. -/
def escapedLoop : Nat → List Char → Option (List Char)
  | _, [] => some []
  | 0, i => some i
  | fuel + 1, i =>
    let tw := i.takeWhile isTermChar
    if tw.isEmpty then
      match i with
      | '\\' :: rest =>
        match rest with
        | [] => none
        | c :: rest2 =>
          if c ∈ escapables then
            if rest2.isEmpty then some [] else escapedLoop fuel rest2
          else none
      | _ => some i
    else
      let i2 := i.dropWhile isTermChar
      if i2.isEmpty then some [] else escapedLoop fuel i2

/-- `terminal` from `src/grammar.rs`: the escaped run, rejected when it is
empty.  Returns `(rest, consumed)`. -/
def terminalP (input : List Char) : Option (List Char × List Char) :=
  match escapedLoop (input.length + 1) input with
  | none => none
  | some rest =>
    let term := input.take (input.length - rest.length)
    if term.isEmpty then none else some (rest, term)

/-- `symbol` from `src/grammar.rs`: `'<'`, then one or more characters other
than `'>'` (the nonterminal name), then `'>'`. -/
def symbolP (input : List Char) : Option (List Char × List Char) :=
  match input with
  | '<' :: rest =>
    let name := rest.takeWhile (fun c => c ≠ '>')
    if name.isEmpty then none
    else
      match rest.dropWhile (fun c => c ≠ '>') with
      | '>' :: rest2 => some (rest2, name)
      | _ => none
  | _ => none

/-- nom's `multispace0`. -/
def ms0 (i : List Char) : List Char := i.dropWhile Char.isWhitespace

/-- nom's `multispace1`. -/
def ms1 (i : List Char) : Option (List Char) :=
  match i with
  | c :: _ =>
    if c.isWhitespace then some (i.dropWhile Char.isWhitespace) else none
  | [] => none

/-- nom's `tag`. -/
def tagP (t : List Char) (i : List Char) : Option (List Char) :=
  if t.isPrefixOf i then some (i.drop t.length) else none

/-- `one_or_more_tag` from `src/grammar.rs`: `multispace0` then `"..."`. -/
def ootP (i : List Char) : Option (List Char) :=
  tagP ['.', '.', '.'] (ms0 i)

mutual

/-- `expr` from `src/grammar.rs`. -/
def exprP : Nat → List Char → Option (List Char × Expr)
  | 0, _ => none
  | fuel + 1, i => alternativeP fuel i

/-- `alternative_expr` from `src/grammar.rs`. -/
def alternativeP : Nat → List Char → Option (List Char × Expr)
  | 0, _ => none
  | fuel + 1, i =>
    match sequenceP fuel i with
    | none => none
    | some (i1, left) =>
      let (i2, elems) := altLoopP fuel i1 [left]
      some (i2, if elems.length = 1 then elems.headD left else Expr.Alternative elems)

/-- The accumulation loop of `alternative_expr`. -/
def altLoopP : Nat → List Char → List Expr → List Char × List Expr
  | 0, i, acc => (i, acc)
  | fuel + 1, i, acc =>
    match doAltP fuel i with
    | none => (i, acc)
    | some (i2, right) => altLoopP fuel i2 (acc ++ [right])

/-- `do_alternative_expr` from `src/grammar.rs`: `multispace0`, `'|'`,
`multispace0`, then a sequence. -/
def doAltP : Nat → List Char → Option (List Char × Expr)
  | 0, _ => none
  | fuel + 1, i =>
    match ms0 i with
    | '|' :: i2 => sequenceP fuel (ms0 i2)
    | _ => none

/-- `sequence_expr` from `src/grammar.rs`. -/
def sequenceP : Nat → List Char → Option (List Char × Expr)
  | 0, _ => none
  | fuel + 1, i =>
    match exprNoAltNoSeqP fuel i with
    | none => none
    | some (i1, left) =>
      let (i2, factors) := seqLoopP fuel i1 [left]
      some (i2, if factors.length = 1 then factors.headD left else Expr.Sequence factors)

/-- The accumulation loop of `sequence_expr`. -/
def seqLoopP : Nat → List Char → List Expr → List Char × List Expr
  | 0, i, acc => (i, acc)
  | fuel + 1, i, acc =>
    match doSeqP fuel i with
    | none => (i, acc)
    | some (i2, right) => seqLoopP fuel i2 (acc ++ [right])

/-- `do_sequence_expr` from `src/grammar.rs`: `multispace0` then a
sequence. -/
def doSeqP : Nat → List Char → Option (List Char × Expr)
  | 0, _ => none
  | fuel + 1, i => sequenceP fuel (ms0 i)

/-- `expr_no_alternative_no_sequence` from `src/grammar.rs`: a symbol,
optional, parenthesized or terminal atom, possibly followed by `...` which
wraps it in `Many1`. -/
def exprNoAltNoSeqP : Nat → List Char → Option (List Char × Expr)
  | 0, _ => none
  | fuel + 1, i =>
    let base : Option (List Char × Expr) :=
      match symbolP i with
      | some (i1, name) => some (i1, Expr.Variable (String.mk name))
      | none =>
        match optionalP fuel i with
        | some r => some r
        | none =>
          match parenP fuel i with
          | some r => some r
          | none =>
            match terminalP i with
            | some (i1, term) => some (i1, Expr.Literal (String.mk term))
            | none => none
    match base with
    | none => none
    | some (i1, e) =>
      match ootP i1 with
      | some i2 => some (i2, Expr.Many1 e)
      | none => some (i1, e)

/-- `optional_expr` from `src/grammar.rs`: `'['`, `multispace0`, an
expression, `multispace0`, `']'`. -/
def optionalP : Nat → List Char → Option (List Char × Expr)
  | 0, _ => none
  | fuel + 1, i =>
    match i with
    | '[' :: i1 =>
      match exprP fuel (ms0 i1) with
      | none => none
      | some (i2, e) =>
        match ms0 i2 with
        | ']' :: i3 => some (i3, Expr.Optional e)
        | _ => none
    | _ => none

/-- `parenthesized_expr` from `src/grammar.rs`. -/
def parenP : Nat → List Char → Option (List Char × Expr)
  | 0, _ => none
  | fuel + 1, i =>
    match i with
    | '(' :: i1 =>
      match exprP fuel (ms0 i1) with
      | none => none
      | some (i2, e) =>
        match ms0 i2 with
        | ')' :: i3 => some (i3, e)
        | _ => none
    | _ => none

end

/-- `call_variant` from `src/grammar.rs`: a terminal command name,
whitespace, a body and `';'`. -/
def call_variantP (fuel : Nat) (i : List Char) : Option (List Char × Statement) :=
  match terminalP i with
  | none => none
  | some (i1, name) =>
    match ms1 i1 with
    | none => none
    | some i2 =>
      match exprP fuel i2 with
      | none => none
      | some (i3, e) =>
        match ms0 i3 with
        | ';' :: i4 => some (i4, Statement.CallVariant (String.mk name) e)
        | _ => none

/-- `variable_definition` from `src/grammar.rs`: a symbol, `"::="`, a body
and `';'`. -/
def variable_definitionP (fuel : Nat) (i : List Char) : Option (List Char × Statement) :=
  match symbolP i with
  | none => none
  | some (i1, sym) =>
    match tagP [':', ':', '='] (ms0 i1) with
    | none => none
    | some i2 =>
      match exprP fuel (ms0 i2) with
      | none => none
      | some (i3, e) =>
        match ms0 i3 with
        | ';' :: i4 => some (i4, Statement.VariableDefinition (String.mk sym) e)
        | _ => none

/-- `statement` from `src/grammar.rs`: a call variant or a variable
definition, with trailing whitespace consumed. -/
def statementP (fuel : Nat) (i : List Char) : Option (List Char × Statement) :=
  match call_variantP fuel i with
  | some (i1, st) => some (ms0 i1, st)
  | none =>
    match variable_definitionP fuel i with
    | some (i1, st) => some (ms0 i1, st)
    | none => none

/-- nom's `many0(statement)`, with its infinite-loop guard (an iteration
that consumes nothing fails the whole parser).  The outer fuel
`length + 1` always suffices because every kept iteration consumes at least
one character. -/
def many0Stmt : Nat → Nat → List Char → Option (List Char × List Statement)
  | 0, _, i => some (i, [])
  | fuel + 1, ef, i =>
    match statementP ef i with
    | none => some (i, [])
    | some (i1, st) =>
      if i1.length = i.length then none
      else
        match many0Stmt fuel ef i1 with
        | none => none
        | some (i2, sts) => some (i2, st :: sts)

/-- Fuel for the expression parsers: generously larger than the maximal
parser call depth, which advances by at least one consumed character every
few nested calls. -/
def exprFuel (s : List Char) : Nat := 8 * s.length + 64

/-- `grammar` from `src/grammar.rs`: `multispace0`, `many0(statement)`,
`multispace0`; returns the unconsumed rest and the statements. -/
def grammarP (s : List Char) : Option (List Char × List Statement) :=
  match many0Stmt (s.length + 1) (exprFuel s) (ms0 s) with
  | none => none
  | some (i2, sts) => some (ms0 i2, sts)

/-- `parse` from `src/grammar.rs`: run the grammar parser; a parser error
becomes `ParsingError`, unconsumed input becomes `TrailingInput`, otherwise
the statement list is returned as a `Grammar`.  (The human-readable detail
string of `ParsingError` is not modelled.) -/
def parse (s : String) : Except Error Grammar :=
  match grammarP s.data with
  | none => .error (.ParsingError "")
  | some (rest, stmts) =>
    if rest.isEmpty then .ok ⟨stmts⟩
    else .error (.TrailingInput (String.mk rest))

/-- C7: when the statement-level grammar parser stops before consuming the
whole input, `parse` returns `TrailingInput` carrying the unconsumed
remainder; and `parse` succeeds only when the entire input was consumed. -/
theorem parse_trailing_input (s : String) :
    (∀ rest stmts, grammarP s.data = some (rest, stmts) → rest ≠ [] →
      parse s = .error (.TrailingInput (String.mk rest))) ∧
    (∀ g, parse s = .ok g → grammarP s.data = some ([], g.statements)) := by
  constructor
  · intro rest stmts hg hne
    have hre : rest.isEmpty = false := by
      cases rest with
      | nil => exact absurd rfl hne
      | cons a l => rfl
    simp only [parse, hg, hre, Bool.false_eq_true, if_false]
  · intro g hp
    unfold parse at hp
    cases hg : grammarP s.data with
    | none =>
      simp only [hg] at hp
      exact absurd hp (by simp)
    | some pr =>
      obtain ⟨rest, stmts⟩ := pr
      simp only [hg] at hp
      by_cases hr : rest.isEmpty
      · rw [if_pos hr] at hp
        injection hp with hp
        have hrn : rest = [] := by
          cases rest with
          | nil => rfl
          | cons a l => simp at hr
        rw [hrn, ← hp]
      · rw [if_neg hr] at hp
        exact absurd hp (by simp)

/-- Witness for C7: a grammar with trailing junk yields `TrailingInput "@"`,
and a successful parse corresponds to full consumption. -/
theorem parse_trailing_input_witness :
    parse "foo bar; @" = .error (.TrailingInput (String.mk ['@'])) ∧
    grammarP "foo bar;".data =
      some ([], (Grammar.mk [Statement.CallVariant "foo" (Expr.Literal "bar")]).statements) :=
  ⟨(parse_trailing_input "foo bar; @").1 ['@']
      [Statement.CallVariant "foo" (Expr.Literal "bar")] (by rfl) (by simp),
    (parse_trailing_input "foo bar;").2
      (Grammar.mk [Statement.CallVariant "foo" (Expr.Literal "bar")]) (by rfl)⟩

end Complgen
